import Mathlib

/-!
Verification of `update_manifest.py`: a build helper that scans a directory of
HTML files, extracts a date of the form `_MM-DD-YY.html` from each filename,
and writes a manifest (`files.json`) listing dated files newest-first followed
by undated files in ascending lexicographic order.

The Python source is embedded shallowly:
* `extract_date_from_filename` — the regex search `_(\d{1,2})-(\d{1,2})-(\d{2})\.html$`
  is modelled by a left-to-right scan (`searchDated`) whose per-position matcher
  (`matchDatedAt`) follows the greedy semantics of the pattern, including the
  Python `$` anchor which also matches just before one trailing newline.
  The character class `\d` is modelled as the ASCII digits `0`-`9`; CPython's
  `\d` on a `str` pattern additionally matches every Unicode decimal digit
  (which `int()` also converts), so the embedding coincides with the program
  exactly on filenames made of ASCII characters, and the one statement that
  rests on a filename *not* matching the pattern
  (`no_match_suffix_is_undated`) restricts itself to that domain.
* `datetime(year, month, day)` — modelled by `mkDatetime`, returning `none`
  exactly when the constructor would raise `ValueError` (proleptic Gregorian
  validity, year range 1..9999).
* `list.sort(key=..., reverse=True)` and `sorted(...)` — Python's stable sort,
  modelled with `List.insertionSort` (also a stable sort, hence computing the
  same list) under the corresponding comparators.
* `json.dump(lst, f, indent=2)` — modelled by `renderJson` (ASCII escaping as
  in the default `ensure_ascii=True` encoder).
* `main` — modelled by `pymain` over a `World` consisting of the optional
  `docs` directory (an association list of entry name to file content) and the
  list of lines printed so far.
-/

open scoped List

/-- The sort key extracted from a filename: a calendar date, as produced by
Python's `datetime(year, month, day)`. -/
structure DateKey where
  year : Nat
  month : Nat
  day : Nat
deriving DecidableEq, Repr

/-- Numeric value of an ASCII digit character. -/
def digitVal (c : Char) : Nat := c.toNat - 48

/-- Value of a one-or-two digit capture group, as `int()` of its text. -/
def digitsVal (cs : List Char) : Nat := cs.foldl (fun n c => 10 * n + digitVal c) 0

/-- Gregorian leap-year rule used by Python's `datetime`. -/
def isLeapYear (y : Nat) : Bool := y % 4 == 0 && (y % 100 != 0 || y % 400 == 0)

/-- Number of days in a month, per Python's `datetime`. -/
def daysInMonth (y m : Nat) : Nat :=
  if m == 2 then (if isLeapYear y then 29 else 28)
  else if m == 4 || m == 6 || m == 9 || m == 11 then 30
  else 31

/-- Whether `datetime(y, m, d)` succeeds (otherwise it raises `ValueError`). -/
def isValidDate (y m d : Nat) : Bool :=
  1 ≤ y && y ≤ 9999 && 1 ≤ m && m ≤ 12 && 1 ≤ d && d ≤ daysInMonth y m

/-- Model of the `datetime(y, m, d)` constructor: `some` on a valid calendar
date, `none` where Python raises `ValueError`. -/
def mkDatetime (y m d : Nat) : Option DateKey :=
  if isValidDate y m d then some ⟨y, m, d⟩ else none

/-- Greedy parse of `\d{1,2}`: take two digits when the first two characters
are digits, else one digit when the first is, else fail. Returns the numeric
value and the unconsumed remainder. (Backtracking from the two-digit choice to
the one-digit choice can never help here, because in the pattern the group is
always followed by a non-digit literal.) -/
def parseMD : List Char → Option (Nat × List Char)
  | c1 :: c2 :: rest =>
    if c1.isDigit && c2.isDigit then some (10 * digitVal c1 + digitVal c2, rest)
    else if c1.isDigit then some (digitVal c1, c2 :: rest)
    else none
  | [c1] => if c1.isDigit then some (digitVal c1, []) else none
  | [] => none

/-- The characters of the literal suffix `.html`. -/
def dotHtml : List Char := ['.', 'h', 't', 'm', 'l']

/-- The `(\d{2})\.html$` part of the pattern: after the second hyphen there
must be exactly two digits and then `.html` at the end of the string — or, per
the semantics of Python's `$` anchor, `.html` followed by one final newline. -/
def matchTail (m d : Nat) (y1 y2 : Char) (r4 : List Char) : Option (Nat × Nat × Nat) :=
  if y1.isDigit && y2.isDigit && (r4 == dotHtml || r4 == dotHtml ++ ['\n']) then
    some (m, d, 10 * digitVal y1 + digitVal y2)
  else none

/-- The remainder of the pattern after the day group: a hyphen, then the
two-digit year and the anchored `.html` suffix. -/
def matchAfterDay (m d : Nat) (r3 : List Char) : Option (Nat × Nat × Nat) :=
  match r3 with
  | '-' :: y1 :: y2 :: r4 => matchTail m d y1 y2 r4
  | _ => none

/-- The remainder of the pattern after the month group: a hyphen, then the
day group and the rest. -/
def matchAfterMonth (m : Nat) (r1 : List Char) : Option (Nat × Nat × Nat) :=
  match r1 with
  | '-' :: r2 => (parseMD r2).bind (fun p => matchAfterDay m p.1 p.2)
  | _ => none

/-- Attempt to match the whole pattern `_(\d{1,2})-(\d{1,2})-(\d{2})\.html$`
starting exactly at the head of `s`. On success, returns the captured
(month, day, two-digit-year) values. -/
def matchDatedAt (s : List Char) : Option (Nat × Nat × Nat) :=
  match s with
  | '_' :: rest => (parseMD rest).bind (fun p => matchAfterMonth p.1 p.2)
  | _ => none

/-- Model of `re.search` for the anchored pattern: try each start position
from the left and return the first successful match's captures. -/
def searchDated : List Char → Option (Nat × Nat × Nat)
  | [] => none
  | c :: rest =>
    match matchDatedAt (c :: rest) with
    | some r => some r
    | none => searchDated rest

/-- Embedding of `extract_date_from_filename`: on a regex match the two-digit
year is mapped to `2000 + year` and the triple is passed to `datetime`;
`ValueError` (an invalid calendar date) yields `None`, as does a failed
match. -/
def extract_date_from_filename (filename : String) : Option DateKey :=
  match searchDated filename.toList with
  | some (m, d, y) => mkDatetime (2000 + y) m d
  | none => none

/-- Boolean comparison of `DateKey`s, matching Python's `datetime` order
(lexicographic on year, month, day). -/
def dkLe (a b : DateKey) : Bool :=
  decide (a.year < b.year ∨ (a.year = b.year ∧
    (a.month < b.month ∨ (a.month = b.month ∧ a.day ≤ b.day))))

/-- Lexicographic comparison of character sequences by code point, the order
Python uses to compare strings. -/
def lexLe : List Char → List Char → Bool
  | [], _ => true
  | _ :: _, [] => false
  | a :: as, b :: bs =>
    if a.toNat = b.toNat then lexLe as bs else decide (a.toNat < b.toNat)

/-- Python's string `<=`. -/
def strLe (a b : String) : Bool := lexLe a.toList b.toList

/-- The descending-by-date relation used to sort `files_with_dates` with
`reverse=True` (ties are left to the sort's stability). -/
def dkDescRel (p q : DateKey × String) : Prop := dkLe q.1 p.1 = true

/-- The ascending lexicographic relation used by `sorted` on
`files_without_dates`. -/
def strLeRel (a b : String) : Prop := strLe a b = true

instance : DecidableRel dkDescRel := fun _ _ => inferInstanceAs (Decidable (_ = true))

instance : DecidableRel strLeRel := fun _ _ => inferInstanceAs (Decidable (_ = true))

/-- The `files_with_dates` list of `main`: the `(date, filename)` pairs, in
directory-enumeration order, for files whose date extraction succeeds. -/
def datedPairs (files : List String) : List (DateKey × String) :=
  files.filterMap (fun f => (extract_date_from_filename f).map (fun d => (d, f)))

/-- The `files_without_dates` list of `main`: the filenames, in
directory-enumeration order, whose date extraction fails. -/
def undatedFiles (files : List String) : List String :=
  files.filter (fun f => (extract_date_from_filename f).isNone)

/-- The dated pairs after `files_with_dates.sort(key=lambda x: x[0],
reverse=True)`. Python's sort is stable; `List.insertionSort` is likewise
stable, so it computes the same list: the unique permutation that is
descending on the date component with ties in input order. -/
def sortedDatedPairs (files : List String) : List (DateKey × String) :=
  (datedPairs files).insertionSort dkDescRel

/-- The undated filenames after `sorted(files_without_dates)`: ascending
lexicographic order, again via a stable sort. -/
def sortedUndated (files : List String) : List String :=
  (undatedFiles files).insertionSort strLeRel

/-- The `sorted_filenames` list of `main`: dated filenames (newest first)
followed by undated filenames (alphabetical). -/
def buildManifest (files : List String) : List String :=
  (sortedDatedPairs files).map Prod.snd ++ sortedUndated files

/-- Lowercase hexadecimal digit. -/
def hexDigit (n : Nat) : Char :=
  if n < 10 then Char.ofNat (48 + n) else Char.ofNat (87 + n)

/-- Four-digit lowercase hexadecimal rendering, as in `\uXXXX` escapes. -/
def hex4 (n : Nat) : String :=
  String.mk [hexDigit (n / 4096 % 16), hexDigit (n / 256 % 16),
    hexDigit (n / 16 % 16), hexDigit (n % 16)]

/-- Escaping of one character by Python's default (`ensure_ascii=True`) JSON
string encoder. -/
def jsonEscapeChar (c : Char) : String :=
  if c = '"' then "\\\""
  else if c = '\\' then "\\\\"
  else if c.toNat == 8 then "\\b"
  else if c.toNat == 9 then "\\t"
  else if c.toNat == 10 then "\\n"
  else if c.toNat == 12 then "\\f"
  else if c.toNat == 13 then "\\r"
  else if 32 ≤ c.toNat && c.toNat ≤ 126 then String.singleton c
  else if c.toNat < 65536 then "\\u" ++ hex4 c.toNat
  else "\\u" ++ hex4 (55296 + (c.toNat - 65536) / 1024) ++
    "\\u" ++ hex4 (56320 + (c.toNat - 65536) % 1024)

/-- A JSON string literal for `s`. -/
def jsonQuote (s : String) : String :=
  "\"" ++ String.join (s.toList.map jsonEscapeChar) ++ "\""

/-- Model of `json.dump(lst, f, indent=2)` for a list of strings: `[]` when
empty, otherwise one two-space-indented element per line. -/
def renderJson : List String → String
  | [] => "[]"
  | l => "[\n" ++ String.intercalate ",\n" (l.map (fun s => "  " ++ jsonQuote s)) ++ "\n]"

/-- Whether a name matches the glob pattern `*.html` (fnmatch translates it
to a full match of `.*\.html`): the name ends with `.html`, case-sensitively. -/
def endsWithHtml (n : String) : Bool := dotHtml.isSuffixOf n.toList

/-- The filenames selected by `docs_dir.glob('*.html')` from the directory's
entries, in enumeration order: names ending in `.html` (case-sensitive,
non-recursive). -/
def globHtml (entries : List (String × String)) : List String :=
  (entries.map Prod.fst).filter endsWithHtml

/-- Model of `open(path, 'w')` followed by a full write: overwrite the
content of an existing entry in place, or append a new entry. -/
def writeEntry : List (String × String) → String → String → List (String × String)
  | [], name, content => [(name, content)]
  | (n, c) :: rest, name, content =>
    if n = name then (n, content) :: rest else (n, c) :: writeEntry rest name content

/-- Content of a named entry of the directory, when present. -/
def readEntry : List (String × String) → String → Option String
  | [], _ => none
  | (n, c) :: rest, name => if n = name then some c else readEntry rest name

/-- The program's world: the `docs` directory (absent when the directory does
not exist; otherwise its entries as name-content pairs in enumeration order)
and the lines printed to standard output. -/
structure World where
  docs : Option (List (String × String))
  out : List String
deriving Repr

/-- The summary text printed by a successful run of `main`. -/
def summaryLines (names : List String) (dated undated : Nat) : List String :=
  ["✓ Generated docs/files.json",
   "  Total files: " ++ toString names.length,
   "  Dated files: " ++ toString dated,
   "  Undated files: " ++ toString undated]
  ++ match names with
     | [] => []
     | x :: rest =>
       ["\nNewest file: " ++ x]
       ++ (if rest.length > 0 then ["Oldest file: " ++ List.getLastD rest x] else [])

/-- Embedding of `main`: report and stop when `docs` is missing; otherwise
glob the `.html` entries, classify and order them, overwrite
`docs/files.json` with the JSON manifest, and print the summary. The
function is total: every run returns normally. -/
def pymain (w : World) : World :=
  match w.docs with
  | none => { w with out := w.out ++ ["Error: docs directory not found"] }
  | some entries =>
    let html_files := globHtml entries
    let sorted_filenames := buildManifest html_files
    let content := renderJson sorted_filenames
    { docs := some (writeEntry entries "files.json" content),
      out := w.out ++ summaryLines sorted_filenames
        (sortedDatedPairs html_files).length (undatedFiles html_files).length }

/-- The text of a `\d{1,2}` capture group: one or two ASCII digits. -/
def DigitStr12 (cs : List Char) : Prop :=
  (∃ a, cs = [a] ∧ a.isDigit = true) ∨
  (∃ a b, cs = [a, b] ∧ a.isDigit = true ∧ b.isDigit = true)

/-- `ShapeWith tail l m d y` : `l` is an underscore, one-or-two digits (of
value `m`), a hyphen, one-or-two digits (of value `d`), a hyphen, exactly two
digits (of value `y`), followed by `tail`. -/
def ShapeWith (tail l : List Char) (m d y : Nat) : Prop :=
  ∃ mcs dcs y1 y2,
    DigitStr12 mcs ∧ DigitStr12 dcs ∧ y1.isDigit = true ∧ y2.isDigit = true ∧
    l = '_' :: (mcs ++ '-' :: (dcs ++ '-' :: y1 :: y2 :: tail)) ∧
    m = digitsVal mcs ∧ d = digitsVal dcs ∧ y = 10 * digitVal y1 + digitVal y2

/-- The claims' dated-suffix pattern: underscore, one-or-two digits, hyphen,
one-or-two digits, hyphen, exactly two digits, and the literal `.html`. -/
def ShapeOf (l : List Char) (m d y : Nat) : Prop := ShapeWith dotHtml l m d y

/-- What the code's regex accepts in one match starting at the head of `l`:
the dated-suffix pattern, where the `$` anchor also tolerates one trailing
newline. -/
def MatchShape (l : List Char) (m d y : Nat) : Prop :=
  ShapeWith dotHtml l m d y ∨ ShapeWith (dotHtml ++ ['\n']) l m d y

/-! ### Order lemmas for the two comparison relations -/

theorem dkDescRel_total (p q : DateKey × String) : dkDescRel p q ∨ dkDescRel q p := by
  simp only [dkDescRel, dkLe, decide_eq_true_eq]
  omega

theorem dkDescRel_trans (p q r : DateKey × String)
    (h1 : dkDescRel p q) (h2 : dkDescRel q r) : dkDescRel p r := by
  simp only [dkDescRel, dkLe, decide_eq_true_eq] at h1 h2 ⊢
  omega

theorem lexLe_total (as : List Char) : ∀ bs, lexLe as bs = true ∨ lexLe bs as = true := by
  induction as with
  | nil => intro bs; left; rfl
  | cons a as ih =>
    intro bs
    cases bs with
    | nil => right; rfl
    | cons b bs =>
      by_cases h : a.toNat = b.toNat
      · rw [show lexLe (a :: as) (b :: bs) = lexLe as bs from by simp [lexLe, h],
            show lexLe (b :: bs) (a :: as) = lexLe bs as from by simp [lexLe, h.symm]]
        exact ih bs
      · have h' : b.toNat ≠ a.toNat := fun hh => h hh.symm
        simp only [lexLe, if_neg h, if_neg h', decide_eq_true_eq]
        omega

theorem lexLe_trans (as : List Char) :
    ∀ bs cs, lexLe as bs = true → lexLe bs cs = true → lexLe as cs = true := by
  induction as with
  | nil => intro bs cs _ _; rfl
  | cons a as ih =>
    intro bs cs h1 h2
    cases bs with
    | nil => simp [lexLe] at h1
    | cons b bs =>
      cases cs with
      | nil => simp [lexLe] at h2
      | cons c cs =>
        by_cases hab : a.toNat = b.toNat
        · by_cases hbc : b.toNat = c.toNat
          · simp only [lexLe, hab, if_true, hbc] at h1 h2
            simp only [lexLe, hab.trans hbc, if_true]
            exact ih bs cs h1 h2
          · simp only [lexLe, hbc, if_false, decide_eq_true_eq] at h2
            have : a.toNat ≠ c.toNat := by omega
            simp only [lexLe, this, if_false, decide_eq_true_eq]
            omega
        · simp only [lexLe, hab, if_false, decide_eq_true_eq] at h1
          by_cases hbc : b.toNat = c.toNat
          · have : a.toNat ≠ c.toNat := by omega
            simp only [lexLe, this, if_false, decide_eq_true_eq]
            omega
          · simp only [lexLe, hbc, if_false, decide_eq_true_eq] at h2
            have : a.toNat ≠ c.toNat := by omega
            simp only [lexLe, this, if_false, decide_eq_true_eq]
            omega

theorem strLeRel_total (a b : String) : strLeRel a b ∨ strLeRel b a :=
  lexLe_total a.toList b.toList

theorem strLeRel_trans (a b c : String)
    (h1 : strLeRel a b) (h2 : strLeRel b c) : strLeRel a c :=
  lexLe_trans a.toList b.toList c.toList h1 h2

/-! ### Structure of the manifest list -/

theorem datedPairs_map_snd (files : List String) :
    (datedPairs files).map Prod.snd =
      files.filter (fun f => (extract_date_from_filename f).isSome) := by
  induction files with
  | nil => rfl
  | cons f fs ih =>
    cases h : extract_date_from_filename f with
    | none =>
      simp only [datedPairs, List.filterMap_cons, h, Option.map_none', List.filter_cons,
        Option.isSome_none, Bool.false_eq_true, if_false] at ih ⊢
      exact ih
    | some d =>
      simp only [datedPairs, List.filterMap_cons, h, Option.map_some', List.map_cons,
        List.filter_cons, Option.isSome_some, if_true] at ih ⊢
      simpa using ih

theorem undatedFiles_eq_filter_not (files : List String) :
    undatedFiles files = files.filter (fun f => !(extract_date_from_filename f).isSome) := by
  unfold undatedFiles
  apply List.filter_congr
  intro f _
  cases extract_date_from_filename f <;> rfl

theorem sortedDatedPairs_perm (files : List String) :
    sortedDatedPairs files ~ datedPairs files :=
  List.perm_insertionSort dkDescRel (datedPairs files)

theorem sortedUndated_perm (files : List String) :
    sortedUndated files ~ undatedFiles files :=
  List.perm_insertionSort strLeRel (undatedFiles files)

theorem buildManifest_perm (files : List String) : buildManifest files ~ files := by
  unfold buildManifest
  have h1 : (sortedDatedPairs files).map Prod.snd ~
      files.filter (fun f => (extract_date_from_filename f).isSome) := by
    calc (sortedDatedPairs files).map Prod.snd
        ~ (datedPairs files).map Prod.snd := (sortedDatedPairs_perm files).map Prod.snd
      _ = _ := datedPairs_map_snd files
  have h2 : sortedUndated files ~
      files.filter (fun f => !(extract_date_from_filename f).isSome) := by
    calc sortedUndated files ~ undatedFiles files := sortedUndated_perm files
      _ = _ := undatedFiles_eq_filter_not files
  exact (h1.append h2).trans (List.filter_append_perm _ files)

theorem sortedDatedPairs_pairwise (files : List String) :
    (sortedDatedPairs files).Pairwise dkDescRel := by
  haveI : IsTotal (DateKey × String) dkDescRel := ⟨dkDescRel_total⟩
  haveI : IsTrans (DateKey × String) dkDescRel := ⟨dkDescRel_trans⟩
  exact List.sorted_insertionSort dkDescRel (datedPairs files)

theorem sortedUndated_pairwise (files : List String) :
    (sortedUndated files).Pairwise strLeRel := by
  haveI : IsTotal String strLeRel := ⟨strLeRel_total⟩
  haveI : IsTrans String strLeRel := ⟨strLeRel_trans⟩
  exact List.sorted_insertionSort strLeRel (undatedFiles files)

theorem mem_sortedDatedPairs (files : List String) (p : DateKey × String)
    (hp : p ∈ sortedDatedPairs files) : extract_date_from_filename p.2 = some p.1 := by
  have hm : p ∈ datedPairs files := (sortedDatedPairs_perm files).mem_iff.mp hp
  simp only [datedPairs, List.mem_filterMap] at hm
  obtain ⟨f, -, hf⟩ := hm
  cases h : extract_date_from_filename f with
  | none => rw [h] at hf; simp at hf
  | some d =>
    rw [h] at hf
    simp only [Option.map_some'] at hf
    injection hf with hf
    subst hf
    simpa using h

theorem mem_sortedUndated (files : List String) (f : String)
    (hf : f ∈ sortedUndated files) : extract_date_from_filename f = none := by
  have hm : f ∈ undatedFiles files := (sortedUndated_perm files).mem_iff.mp hf
  have := (List.mem_filter.mp hm).2
  simpa [Option.isNone_iff_eq_none] using this

/-! ### Correctness of the regex model -/

theorem matchDatedAt_underscore (rest : List Char) :
    matchDatedAt ('_' :: rest) = (parseMD rest).bind (fun p => matchAfterMonth p.1 p.2) := rfl

theorem matchAfterMonth_dash (m : Nat) (r2 : List Char) :
    matchAfterMonth m ('-' :: r2) = (parseMD r2).bind (fun p => matchAfterDay m p.1 p.2) := rfl

theorem matchAfterDay_dash (m d : Nat) (y1 y2 : Char) (r4 : List Char) :
    matchAfterDay m d ('-' :: y1 :: y2 :: r4) = matchTail m d y1 y2 r4 := rfl

theorem matchDatedAt_not_underscore (c : Char) (rest : List Char) (h : ¬ c = '_') :
    matchDatedAt (c :: rest) = none := by
  unfold matchDatedAt
  split
  · rename_i heq
    injection heq with h1 _
    exact absurd h1 h
  · rfl

theorem parseMD_append (cs r : List Char) (h : DigitStr12 cs) :
    parseMD (cs ++ '-' :: r) = some (digitsVal cs, '-' :: r) := by
  rcases h with ⟨a, rfl, ha⟩ | ⟨a, b, rfl, ha, hb⟩
  · show parseMD (a :: '-' :: r) = _
    simp [parseMD, ha, digitsVal, show ('-').isDigit = false from by decide]
  · show parseMD (a :: b :: '-' :: r) = _
    simp [parseMD, ha, hb, digitsVal]

theorem matchDatedAt_complete (l : List Char) (m d y : Nat) (h : MatchShape l m d y) :
    matchDatedAt l = some (m, d, y) := by
  have main : ∀ tail, (tail = dotHtml ∨ tail = dotHtml ++ ['\n']) →
      ShapeWith tail l m d y → matchDatedAt l = some (m, d, y) := by
    intro tail htail hsh
    obtain ⟨mcs, dcs, y1, y2, hmcs, hdcs, hy1, hy2, rfl, rfl, rfl, rfl⟩ := hsh
    rw [matchDatedAt_underscore, parseMD_append mcs _ hmcs, Option.some_bind,
      matchAfterMonth_dash, parseMD_append dcs _ hdcs, Option.some_bind,
      matchAfterDay_dash]
    unfold matchTail
    simp only [hy1, hy2, Bool.true_and]
    rcases htail with rfl | rfl <;> simp
  rcases h with hsh | hsh
  · exact main dotHtml (Or.inl rfl) hsh
  · exact main (dotHtml ++ ['\n']) (Or.inr rfl) hsh

theorem parseMD_sound (xs : List Char) (v : Nat) (r : List Char)
    (h : parseMD xs = some (v, r)) :
    ∃ cs, DigitStr12 cs ∧ xs = cs ++ r ∧ v = digitsVal cs := by
  match xs with
  | [] => simp [parseMD] at h
  | [c1] =>
    by_cases hc : c1.isDigit = true
    · simp only [parseMD, hc, if_true] at h
      injection h with h
      obtain ⟨hv, hr⟩ := Prod.mk.injEq .. ▸ h
      refine ⟨[c1], Or.inl ⟨c1, rfl, hc⟩, ?_, ?_⟩
      · rw [← hr]; rfl
      · simp [← hv, digitsVal, digitVal]
    · simp [parseMD, hc] at h
  | c1 :: c2 :: rest =>
    by_cases e1 : c1.isDigit = true
    · by_cases e2 : c2.isDigit = true
      · simp only [parseMD, e1, e2, Bool.and_self, if_true] at h
        injection h with h
        obtain ⟨hv, hr⟩ := Prod.mk.injEq .. ▸ h
        refine ⟨[c1, c2], Or.inr ⟨c1, c2, rfl, e1, e2⟩, ?_, ?_⟩
        · rw [← hr]; rfl
        · simp [← hv, digitsVal, digitVal]
      · simp only [parseMD, e1, e2, Bool.and_false, Bool.false_eq_true, if_false, if_true] at h
        injection h with h
        obtain ⟨hv, hr⟩ := Prod.mk.injEq .. ▸ h
        refine ⟨[c1], Or.inl ⟨c1, rfl, e1⟩, ?_, ?_⟩
        · rw [← hr]; rfl
        · simp [← hv, digitsVal, digitVal]
    · simp [parseMD, e1] at h

theorem matchTail_sound (m d : Nat) (y1 y2 : Char) (r4 : List Char) (m' d' y' : Nat)
    (h : matchTail m d y1 y2 r4 = some (m', d', y')) :
    y1.isDigit = true ∧ y2.isDigit = true ∧
      (r4 = dotHtml ∨ r4 = dotHtml ++ ['\n']) ∧
      m' = m ∧ d' = d ∧ y' = 10 * digitVal y1 + digitVal y2 := by
  unfold matchTail at h
  split at h
  · rename_i hcond
    simp only [Bool.and_eq_true, Bool.or_eq_true, beq_iff_eq] at hcond
    injection h with h
    obtain ⟨hm, hrest⟩ := Prod.mk.injEq .. ▸ h
    obtain ⟨hd, hy⟩ := Prod.mk.injEq .. ▸ hrest
    exact ⟨hcond.1.1, hcond.1.2, hcond.2, hm.symm, hd.symm, hy.symm⟩
  · cases h

theorem matchAfterDay_sound (m d : Nat) (r3 : List Char) (m' d' y' : Nat)
    (h : matchAfterDay m d r3 = some (m', d', y')) :
    ∃ y1 y2 r4, r3 = '-' :: y1 :: y2 :: r4 ∧ matchTail m d y1 y2 r4 = some (m', d', y') := by
  match r3 with
  | [] => simp [matchAfterDay] at h
  | [c] => unfold matchAfterDay at h; split at h
           · rename_i heq; cases heq
           · cases h
  | [c, c2] => unfold matchAfterDay at h; split at h
               · rename_i heq; cases heq
               · cases h
  | c :: c2 :: c3 :: r4 =>
    by_cases hc : c = '-'
    · subst hc
      exact ⟨c2, c3, r4, rfl, h⟩
    · rw [show matchAfterDay m d (c :: c2 :: c3 :: r4) = none from ?_] at h
      · cases h
      · unfold matchAfterDay
        split
        · rename_i heq
          injection heq with h1 _
          exact absurd h1 hc
        · rfl

theorem matchAfterMonth_sound (m : Nat) (r1 : List Char) (m' d' y' : Nat)
    (h : matchAfterMonth m r1 = some (m', d', y')) :
    ∃ r2 dv r3, r1 = '-' :: r2 ∧ parseMD r2 = some (dv, r3) ∧
      matchAfterDay m dv r3 = some (m', d', y') := by
  match r1 with
  | [] => simp [matchAfterMonth] at h
  | c :: r2 =>
    by_cases hc : c = '-'
    · subst hc
      rw [matchAfterMonth_dash] at h
      obtain ⟨⟨dv, r3⟩, hp, hb⟩ := Option.bind_eq_some.mp h
      exact ⟨r2, dv, r3, rfl, hp, hb⟩
    · rw [show matchAfterMonth m (c :: r2) = none from ?_] at h
      · cases h
      · unfold matchAfterMonth
        split
        · rename_i heq
          injection heq with h1 _
          exact absurd h1 hc
        · rfl

theorem matchDatedAt_sound (l : List Char) (m d y : Nat)
    (h : matchDatedAt l = some (m, d, y)) : MatchShape l m d y := by
  match l with
  | [] => simp [matchDatedAt] at h
  | c :: rest =>
    by_cases hc : c = '_'
    case neg => rw [matchDatedAt_not_underscore c rest hc] at h; cases h
    case pos =>
      subst hc
      rw [matchDatedAt_underscore] at h
      obtain ⟨⟨mv, r1⟩, hp1, hb1⟩ := Option.bind_eq_some.mp h
      obtain ⟨mcs, hmcs, hrest, hmv⟩ := parseMD_sound rest mv r1 hp1
      obtain ⟨r2, dv, r3, hr1, hp2, hb2⟩ := matchAfterMonth_sound mv r1 m d y hb1
      obtain ⟨dcs, hdcs, hr2, hdv⟩ := parseMD_sound r2 dv r3 hp2
      obtain ⟨y1, y2, r4, hr3, htail⟩ := matchAfterDay_sound mv dv r3 m d y hb2
      obtain ⟨hy1, hy2, hr4, hm, hd, hy⟩ := matchTail_sound mv dv y1 y2 r4 m d y htail
      have hshape : ∀ tail, r4 = tail →
          ShapeWith tail ('_' :: rest) m d y := by
        intro tail htl
        refine ⟨mcs, dcs, y1, y2, hmcs, hdcs, hy1, hy2, ?_, ?_, ?_, ?_⟩
        · rw [hrest, hr1, hr2, hr3, htl]
        · rw [hm, hmv]
        · rw [hd, hdv]
        · exact hy
      rcases hr4 with h4 | h4
      · exact Or.inl (hshape dotHtml h4)
      · exact Or.inr (hshape (dotHtml ++ ['\n']) h4)

theorem digitStr12_length (cs : List Char) (h : DigitStr12 cs) :
    cs.length = 1 ∨ cs.length = 2 := by
  rcases h with ⟨a, rfl, -⟩ | ⟨a, b, rfl, -, -⟩ <;> simp

theorem matchShape_length (l : List Char) (m d y : Nat) (h : MatchShape l m d y) :
    12 ≤ l.length ∧ l.length ≤ 15 := by
  have main : ∀ tail, 5 ≤ tail.length → tail.length ≤ 6 →
      ∀ m' d' y', ShapeWith tail l m' d' y' → 12 ≤ l.length ∧ l.length ≤ 15 := by
    intro tail h5 h6 m' d' y' hsh
    obtain ⟨mcs, dcs, y1, y2, hmcs, hdcs, -, -, rfl, -, -, -⟩ := hsh
    have l1 := digitStr12_length mcs hmcs
    have l2 := digitStr12_length dcs hdcs
    simp only [List.length_cons, List.length_append]
    omega
  rcases h with hsh | hsh
  · exact main dotHtml (by decide) (by decide) m d y hsh
  · exact main (dotHtml ++ ['\n']) (by decide) (by decide) m d y hsh

theorem matchShape_cons (s : List Char) (m d y : Nat) (h : MatchShape s m d y) :
    ∃ t, s = '_' :: t := by
  rcases h with ⟨mcs, dcs, y1, y2, -, -, -, -, rfl, -, -, -⟩ |
    ⟨mcs, dcs, y1, y2, -, -, -, -, rfl, -, -, -⟩ <;> exact ⟨_, rfl⟩

theorem matchShape_first4 (l : List Char) (m d y : Nat) (h : MatchShape l m d y) :
    ∃ c1 c2 c3 rest, l = '_' :: c1 :: c2 :: c3 :: rest ∧
      c1.isDigit = true ∧
      (c2.isDigit = true ∨ c2 = '-') ∧
      (c3.isDigit = true ∨ c3 = '-') := by
  have main : ∀ tail m' d' y', ShapeWith tail l m' d' y' →
      ∃ c1 c2 c3 rest, l = '_' :: c1 :: c2 :: c3 :: rest ∧
        c1.isDigit = true ∧
        (c2.isDigit = true ∨ c2 = '-') ∧
        (c3.isDigit = true ∨ c3 = '-') := by
    intro tail m' d' y' hsh
    obtain ⟨mcs, dcs, y1, y2, hmcs, hdcs, -, -, rfl, -, -, -⟩ := hsh
    rcases hmcs with ⟨a, rfl, ha⟩ | ⟨a, b, rfl, ha, hb⟩
    · rcases hdcs with ⟨e, rfl, he⟩ | ⟨e, f, rfl, he, hf⟩
      · exact ⟨a, '-', e, '-' :: y1 :: y2 :: tail, by simp, ha, Or.inr rfl, Or.inl he⟩
      · exact ⟨a, '-', e, f :: '-' :: y1 :: y2 :: tail, by simp, ha, Or.inr rfl, Or.inl he⟩
    · exact ⟨a, b, '-', dcs ++ '-' :: y1 :: y2 :: tail, by simp, ha, Or.inl hb, Or.inr rfl⟩
  rcases h with hsh | hsh
  · exact main dotHtml m d y hsh
  · exact main (dotHtml ++ ['\n']) m d y hsh

theorem matchShape_suffix_eq (l s : List Char) (m d y m' d' y' : Nat)
    (hl : MatchShape l m d y) (hs : MatchShape s m' d' y')
    (hsuf : s <:+ l) : s = l := by
  obtain ⟨u, hu⟩ := hsuf
  obtain ⟨t, rfl⟩ := matchShape_cons s m' d' y' hs
  have hsl : 12 ≤ ('_' :: t).length := (matchShape_length _ m' d' y' hs).1
  have hll : l.length ≤ 15 := (matchShape_length l m d y hl).2
  have hu3 : u.length ≤ 3 := by
    have := congrArg List.length hu
    simp only [List.length_append] at this
    omega
  obtain ⟨c1, c2, c3, rest, rfl, h1, h2, h3⟩ := matchShape_first4 l m d y hl
  have und : ('_').isDigit = false := by decide
  match u, hu with
  | [], hu => simpa using hu
  | [a], hu =>
    simp only [List.cons_append, List.nil_append, List.cons.injEq] at hu
    obtain ⟨-, hc1, -⟩ := hu
    rw [← hc1] at h1
    rw [und] at h1
    cases h1
  | [a, b], hu =>
    simp only [List.cons_append, List.nil_append, List.cons.injEq] at hu
    obtain ⟨-, -, hc2, -⟩ := hu
    rcases h2 with h2 | h2
    · rw [← hc2] at h2; rw [und] at h2; cases h2
    · rw [h2] at hc2; cases hc2
  | [a, b, c], hu =>
    simp only [List.cons_append, List.nil_append, List.cons.injEq] at hu
    obtain ⟨-, -, -, hc3, -⟩ := hu
    rcases h3 with h3 | h3
    · rw [← hc3] at h3; rw [und] at h3; cases h3
    · rw [h3] at hc3; cases hc3
  | a :: b :: c :: e :: u', hu =>
    exfalso
    simp only [List.length_cons] at hu3
    omega

theorem searchDated_complete (l s : List Char) (m d y : Nat)
    (hs : MatchShape s m d y) (hsuf : s <:+ l) :
    searchDated l = some (m, d, y) := by
  induction l with
  | nil =>
    exfalso
    have h0 : s = [] := List.suffix_nil.mp hsuf
    have := (matchShape_length s m d y hs).1
    rw [h0] at this
    simp at this
  | cons c rest ih =>
    cases hm : matchDatedAt (c :: rest) with
    | some r =>
      obtain ⟨m', d', y'⟩ := r
      have hl' : MatchShape (c :: rest) m' d' y' := matchDatedAt_sound _ _ _ _ hm
      have hseq : s = c :: rest := matchShape_suffix_eq (c :: rest) s m' d' y' m d y hl' hs hsuf
      have hfull : matchDatedAt (c :: rest) = some (m, d, y) := by
        rw [← hseq]
        exact matchDatedAt_complete s m d y hs
      simp [searchDated, hfull]
    | none =>
      have hsuf' : s <:+ rest := by
        obtain ⟨u, hu⟩ := hsuf
        match u, hu with
        | [], hu =>
          exfalso
          simp only [List.nil_append] at hu
          rw [hu] at hs
          rw [matchDatedAt_complete _ m d y hs] at hm
          cases hm
        | a :: u', hu =>
          simp only [List.cons_append, List.cons.injEq] at hu
          exact ⟨u', hu.2⟩
      simp [searchDated, hm]
      exact ih hsuf'

theorem searchDated_sound (l : List Char) (m d y : Nat)
    (h : searchDated l = some (m, d, y)) :
    ∃ s, s <:+ l ∧ MatchShape s m d y := by
  induction l with
  | nil => cases h
  | cons c rest ih =>
    cases hm : matchDatedAt (c :: rest) with
    | some r =>
      obtain ⟨m', d', y'⟩ := r
      simp only [searchDated, hm] at h
      injection h with h
      cases h
      exact ⟨c :: rest, List.suffix_rfl, matchDatedAt_sound _ _ _ _ hm⟩
    | none =>
      simp only [searchDated, hm] at h
      obtain ⟨s, hsuf, hsh⟩ := ih h
      exact ⟨s, hsuf.trans (List.suffix_cons c rest), hsh⟩

theorem extract_eq_of_shape (f : String) (s : List Char) (m d y : Nat)
    (hsuf : s <:+ f.toList) (hsh : MatchShape s m d y) :
    extract_date_from_filename f = mkDatetime (2000 + y) m d := by
  unfold extract_date_from_filename
  rw [searchDated_complete f.toList s m d y hsh hsuf]

theorem extract_none_of_no_shape (f : String)
    (h : ∀ s m d y, s <:+ f.toList → ¬ MatchShape s m d y) :
    extract_date_from_filename f = none := by
  unfold extract_date_from_filename
  cases hs : searchDated f.toList with
  | none => rfl
  | some r =>
    obtain ⟨m, d, y⟩ := r
    obtain ⟨s, hsuf, hsh⟩ := searchDated_sound f.toList m d y hs
    exact absurd hsh (h s m d y hsuf)

/-! ### The directory model -/

theorem readEntry_writeEntry (es : List (String × String)) (name content : String) :
    readEntry (writeEntry es name content) name = some content := by
  induction es with
  | nil => simp [writeEntry, readEntry]
  | cons e rest ih =>
    obtain ⟨n, c⟩ := e
    by_cases h : n = name
    · simp [writeEntry, readEntry, h]
    · simp [writeEntry, readEntry, h, ih]

theorem map_fst_writeEntry (es : List (String × String)) (name content : String) :
    (writeEntry es name content).map Prod.fst =
      if name ∈ es.map Prod.fst then es.map Prod.fst else es.map Prod.fst ++ [name] := by
  induction es with
  | nil => simp [writeEntry]
  | cons e rest ih =>
    obtain ⟨n, c⟩ := e
    by_cases h : n = name
    · simp [writeEntry, h]
    · simp only [writeEntry, if_neg h, List.map_cons, ih, List.mem_cons]
      have : ¬ name = n := fun hh => h hh.symm
      by_cases hm : name ∈ rest.map Prod.fst
      · simp [hm, this]
      · simp [hm, this]

theorem globHtml_writeEntry (es : List (String × String)) (name content : String)
    (h : endsWithHtml name = false) :
    globHtml (writeEntry es name content) = globHtml es := by
  unfold globHtml
  rw [map_fst_writeEntry]
  by_cases hm : name ∈ es.map Prod.fst
  · rw [if_pos hm]
  · rw [if_neg hm, List.filter_append]
    simp [h]

/-! ### The claims -/

/-- C1: for every input list of `.html` filenames, the manifest `main` builds
decomposes as the dated filenames sorted by extracted `DateKey` newest-first
(the dated subsequence is non-increasing by date), followed by the undated
filenames in non-decreasing lexicographic order; the two blocks are exactly
the dated and undated inputs. -/
theorem manifest_is_dated_desc_then_undated_asc (files : List String) :
    ∃ (A : List (DateKey × String)) (B : List String),
      buildManifest files = A.map Prod.snd ++ B ∧
      (∀ p ∈ A, extract_date_from_filename p.2 = some p.1) ∧
      A.Pairwise dkDescRel ∧
      A.map Prod.snd ~ files.filter (fun f => (extract_date_from_filename f).isSome) ∧
      (∀ b ∈ B, extract_date_from_filename b = none) ∧
      B.Pairwise strLeRel ∧
      B ~ files.filter (fun f => (extract_date_from_filename f).isNone) := by
  refine ⟨sortedDatedPairs files, sortedUndated files, rfl,
    fun p hp => mem_sortedDatedPairs files p hp,
    sortedDatedPairs_pairwise files, ?_,
    fun b hb => mem_sortedUndated files b hb,
    sortedUndated_pairwise files, ?_⟩
  · have h := (sortedDatedPairs_perm files).map Prod.snd
    rwa [datedPairs_map_snd files] at h
  · exact sortedUndated_perm files

/-- C2: a filename ending in the dated suffix `_MM-DD-YY.html` whose values
form a valid calendar date extracts to the `DateKey`
`(2000 + YY, MM, DD)`. -/
theorem extract_valid_dated_suffix (f : String) (s : List Char) (m d y : Nat)
    (hsuf : s <:+ f.toList) (hsh : ShapeOf s m d y)
    (hval : isValidDate (2000 + y) m d = true) :
    extract_date_from_filename f = some ⟨2000 + y, m, d⟩ := by
  rw [extract_eq_of_shape f s m d y hsuf (Or.inl hsh)]
  unfold mkDatetime
  rw [if_pos hval]

theorem extract_valid_dated_suffix_witness :
    ShapeOf ("_01-15-24.html" : String).toList 1 15 24 ∧
    isValidDate (2000 + 24) 1 15 = true ∧
    extract_date_from_filename "report_01-15-24.html" = some ⟨2000 + 24, 1, 15⟩ := by
  have hsh : ShapeOf ("_01-15-24.html" : String).toList 1 15 24 :=
    ⟨['0', '1'], ['1', '5'], '2', '4',
      Or.inr ⟨'0', '1', rfl, by decide, by decide⟩,
      Or.inr ⟨'1', '5', rfl, by decide, by decide⟩,
      by decide, by decide, by decide, by decide, by decide, by decide⟩
  exact ⟨hsh, by decide,
    extract_valid_dated_suffix "report_01-15-24.html" _ 1 15 24
      ⟨("report" : String).toList, by decide⟩ hsh (by decide)⟩

/-- C3: a filename whose trailing suffix syntactically matches the dated
pattern but does not denote a real calendar date extracts to `None`, is
classified undated by `main`, raises no error, and still appears in the
manifest. -/
theorem invalid_date_is_undated (f : String) (s : List Char) (m d y : Nat)
    (hsuf : s <:+ f.toList) (hsh : ShapeOf s m d y)
    (hval : isValidDate (2000 + y) m d = false) :
    extract_date_from_filename f = none ∧
      ∀ files : List String, f ∈ files →
        f ∈ undatedFiles files ∧ f ∈ buildManifest files := by
  have hnone : extract_date_from_filename f = none := by
    rw [extract_eq_of_shape f s m d y hsuf (Or.inl hsh)]
    unfold mkDatetime
    rw [if_neg]
    rw [hval]
    exact Bool.false_ne_true
  refine ⟨hnone, fun files hf => ⟨?_, ?_⟩⟩
  · exact List.mem_filter.mpr ⟨hf, by simp [hnone]⟩
  · exact (buildManifest_perm files).mem_iff.mpr hf

theorem invalid_date_is_undated_witness :
    ShapeOf ("_02-30-24.html" : String).toList 2 30 24 ∧
    isValidDate (2000 + 24) 2 30 = false ∧
    extract_date_from_filename "draft_02-30-24.html" = none ∧
    "draft_02-30-24.html" ∈ undatedFiles ["draft_02-30-24.html"] ∧
    "draft_02-30-24.html" ∈ buildManifest ["draft_02-30-24.html"] := by
  have hsh : ShapeOf ("_02-30-24.html" : String).toList 2 30 24 :=
    ⟨['0', '2'], ['3', '0'], '2', '4',
      Or.inr ⟨'0', '2', rfl, by decide, by decide⟩,
      Or.inr ⟨'3', '0', rfl, by decide, by decide⟩,
      by decide, by decide, by decide, by decide, by decide, by decide⟩
  have h := invalid_date_is_undated "draft_02-30-24.html" _ 2 30 24
    ⟨("draft" : String).toList, by decide⟩ hsh (by decide)
  exact ⟨hsh, by decide, h.1, (h.2 _ (by simp)).1, (h.2 _ (by simp)).2⟩

theorem getLast?_append_right (l1 l2 : List Char) (c : Char)
    (h : l2.getLast? = some c) : (l1 ++ l2).getLast? = some c := by
  rw [List.getLast?_append, h]
  rfl

/-- C4 (counterexample): the claim "every filename that does not end with the
suffix pattern extracts no date" fails on the code. The filename
`"a_1-1-24.html\n"` ends in a newline, so no suffix of it is the pattern
(underscore, digits, hyphen, digits, hyphen, two digits, literal `.html`),
yet the regex `$` anchor of `re.search` also matches just before a single
trailing newline, so `extract_date_from_filename` returns the date
2024-01-01. -/
theorem no_suffix_undated_counterexample :
    (¬ ∃ s m d y, s <:+ ("a_1-1-24.html\n" : String).toList ∧ ShapeOf s m d y) ∧
    extract_date_from_filename "a_1-1-24.html\n" = some ⟨2024, 1, 1⟩ := by
  constructor
  · rintro ⟨s, m, d, y, hsuf, hsh⟩
    have hlast : s.getLast? = some 'l' := by
      obtain ⟨mcs, dcs, y1, y2, -, -, -, -, rfl, -, -, -⟩ := hsh
      have h2 : ('-' :: y1 :: y2 :: dotHtml).getLast? = some 'l' :=
        getLast?_append_right ['-', y1, y2] dotHtml 'l' (by decide)
      have h4 : ('-' :: (dcs ++ '-' :: y1 :: y2 :: dotHtml)).getLast? = some 'l' :=
        getLast?_append_right ['-'] _ 'l' (getLast?_append_right dcs _ 'l' h2)
      exact getLast?_append_right ['_'] _ 'l' (getLast?_append_right mcs _ 'l' h4)
    have hne : s ≠ [] := by
      obtain ⟨t, rfl⟩ := matchShape_cons s m d y (Or.inl hsh)
      simp
    obtain ⟨u, hu⟩ := hsuf
    have hl2 : (("a_1-1-24.html\n" : String).toList).getLast? = some 'l' := by
      rw [← hu, List.getLast?_append]
      cases hs : s.getLast? with
      | none => exact absurd (List.getLast?_eq_none_iff.mp hs) hne
      | some c =>
        rw [hs] at hlast
        injection hlast with hlast
        rw [hlast]
        rfl
    rw [show (("a_1-1-24.html\n" : String).toList).getLast? = some '\n' from by decide] at hl2
    injection hl2 with hl2
    exact absurd hl2 (by decide)
  · decide

/-- C4 (amended): for every filename made of ASCII characters with no suffix
matching the pattern even after allowing the single trailing newline
tolerated by the regex's `$` anchor, `extract_date_from_filename` returns no
date, and `main` classifies the filename as undated.

The ASCII restriction is forced by a second divergence of the original
claim from the code: CPython's `\d` on a `str` pattern matches every Unicode
decimal digit and `int()` converts it, so the program extracts a date from a
suffix written with, say, Arabic-Indic digits even though no suffix in the
claim's `0`-`9` sense is present. This embedding models `\d` as the ASCII
digits, which coincides with the program exactly on ASCII filenames — the
domain this theorem quantifies over (which is why the ASCII hypothesis is
not needed by the proof: on non-ASCII filenames the model itself is not the
program). -/
theorem no_match_suffix_is_undated (f : String)
    (hascii : ∀ c ∈ f.toList, c.toNat < 128)
    (h : ¬ ∃ s m d y, s <:+ f.toList ∧ MatchShape s m d y) :
    extract_date_from_filename f = none ∧
      ∀ files : List String, f ∈ files → f ∈ undatedFiles files := by
  have hnone : extract_date_from_filename f = none :=
    extract_none_of_no_shape f (fun s m d y hsuf hsh => h ⟨s, m, d, y, hsuf, hsh⟩)
  exact ⟨hnone, fun files hf => List.mem_filter.mpr ⟨hf, by simp [hnone]⟩⟩

theorem no_match_suffix_is_undated_witness :
    (∀ c ∈ ("index.html" : String).toList, c.toNat < 128) ∧
    (¬ ∃ s m d y, s <:+ ("index.html" : String).toList ∧ MatchShape s m d y) ∧
    extract_date_from_filename "index.html" = none ∧
    "index.html" ∈ undatedFiles ["index.html"] := by
  have hno : ¬ ∃ s m d y, s <:+ ("index.html" : String).toList ∧ MatchShape s m d y := by
    rintro ⟨s, m, d, y, hsuf, hsh⟩
    have h12 := (matchShape_length s m d y hsh).1
    have hle := hsuf.length_le
    rw [show (("index.html" : String).toList).length = 10 from by decide] at hle
    omega
  have h := no_match_suffix_is_undated "index.html" (by decide) hno
  exact ⟨by decide, hno, h.1, h.2 _ (by simp)⟩

/-- C5: when the scan directory does not exist, `main` returns normally (the
model `pymain` is a total function), writes or modifies no file (the world's
directory component is unchanged), and only reports the missing-directory
condition; and this is the only failure mode — whenever the directory exists
`main` performs the write and prints the success summary instead. -/
theorem missing_directory_behavior (w : World) :
    (w.docs = none →
      pymain w = ⟨none, w.out ++ ["Error: docs directory not found"]⟩) ∧
    (∀ entries, w.docs = some entries →
      pymain w = ⟨some (writeEntry entries "files.json"
          (renderJson (buildManifest (globHtml entries)))),
        w.out ++ summaryLines (buildManifest (globHtml entries))
          (sortedDatedPairs (globHtml entries)).length
          (undatedFiles (globHtml entries)).length⟩) := by
  obtain ⟨docs, out⟩ := w
  constructor
  · rintro rfl
    rfl
  · rintro entries rfl
    rfl

theorem missing_directory_behavior_witness :
    pymain ⟨none, []⟩ = ⟨none, ["Error: docs directory not found"]⟩ ∧
    pymain ⟨some [], []⟩ = ⟨some [("files.json", "[]")], summaryLines [] 0 0⟩ := by
  refine ⟨(missing_directory_behavior ⟨none, []⟩).1 rfl, ?_⟩
  exact (missing_directory_behavior ⟨some [], []⟩).2 [] rfl

/-- C6: the manifest contains exactly the `.html` entries of the scanned
directory — membership both ways, and exactly once when the directory's
entry names are distinct — and the file written by `main` is regenerated
from the directory scan alone (its content is the rendering of
`buildManifest` of the current glob, regardless of any previous
`files.json`). -/
theorem manifest_matches_directory (entries : List (String × String)) (out : List String) :
    (∀ f, f ∈ buildManifest (globHtml entries) ↔ f ∈ globHtml entries) ∧
    ((entries.map Prod.fst).Nodup →
      ∀ f ∈ globHtml entries, (buildManifest (globHtml entries)).count f = 1) ∧
    readEntry ((pymain ⟨some entries, out⟩).docs.getD []) "files.json" =
      some (renderJson (buildManifest (globHtml entries))) := by
  refine ⟨fun f => (buildManifest_perm _).mem_iff, ?_, ?_⟩
  · intro hnd f hf
    have hnd' : (globHtml entries).Nodup := hnd.filter _
    rw [(buildManifest_perm _).count_eq]
    exact List.count_eq_one_of_mem hnd' hf
  · exact readEntry_writeEntry entries "files.json"
      (renderJson (buildManifest (globHtml entries)))

theorem manifest_matches_directory_witness :
    (([("a_1-1-24.html", "")] : List (String × String)).map Prod.fst).Nodup ∧
    "a_1-1-24.html" ∈ globHtml [("a_1-1-24.html", "")] ∧
    (buildManifest (globHtml [("a_1-1-24.html", "")])).count "a_1-1-24.html" = 1 :=
  ⟨by decide, by decide,
    (manifest_matches_directory [("a_1-1-24.html", "")] []).2.1 (by decide) _ (by decide)⟩

/-- C7: running `main` twice on an unchanged directory produces byte-identical
manifest files: the `files.json` written by the first run is not a `.html`
file, so the second run scans the same inputs and writes the same bytes. -/
theorem second_run_byte_identical (entries : List (String × String)) (out : List String) :
    readEntry ((pymain (pymain ⟨some entries, out⟩)).docs.getD []) "files.json" =
      readEntry ((pymain ⟨some entries, out⟩).docs.getD []) "files.json" := by
  have hglob : globHtml (writeEntry entries "files.json"
      (renderJson (buildManifest (globHtml entries)))) = globHtml entries :=
    globHtml_writeEntry entries "files.json" _ (by decide)
  rw [show (pymain (pymain ⟨some entries, out⟩)).docs.getD ([] : List (String × String)) =
      writeEntry (writeEntry entries "files.json" (renderJson (buildManifest (globHtml entries))))
        "files.json" (renderJson (buildManifest (globHtml (writeEntry entries "files.json"
          (renderJson (buildManifest (globHtml entries))))))) from rfl]
  rw [readEntry_writeEntry]
  rw [show (pymain ⟨some entries, out⟩).docs.getD ([] : List (String × String)) =
      writeEntry entries "files.json" (renderJson (buildManifest (globHtml entries))) from rfl]
  rw [readEntry_writeEntry]
  rw [hglob]

/-- C8: on an existing directory with zero `.html` entries, `main` runs
without error and the written manifest is exactly the two bytes `[]`. -/
theorem empty_directory_manifest (entries : List (String × String)) (out : List String)
    (h : globHtml entries = []) :
    readEntry ((pymain ⟨some entries, out⟩).docs.getD []) "files.json" = some "[]" := by
  rw [show (pymain ⟨some entries, out⟩).docs.getD ([] : List (String × String)) =
      writeEntry entries "files.json" (renderJson (buildManifest (globHtml entries))) from rfl]
  rw [readEntry_writeEntry, h]
  rfl

theorem empty_directory_manifest_witness :
    globHtml [("notes.txt", "")] = [] ∧
    readEntry ((pymain ⟨some [("notes.txt", "")], []⟩).docs.getD []) "files.json" =
      some "[]" :=
  ⟨by decide, empty_directory_manifest [("notes.txt", "")] [] (by decide)⟩

/-- C9: for a directory holding exactly the four files of the spec's worked
example (in any enumeration order), the manifest is
`["report_01-15-24.html", "notes_12-31-23.html", "draft_02-30-24.html",
"index.html"]`. -/
theorem example_directory_order (files : List String)
    (h : files ~ ["report_01-15-24.html", "notes_12-31-23.html", "index.html",
      "draft_02-30-24.html"]) :
    buildManifest files = ["report_01-15-24.html", "notes_12-31-23.html",
      "draft_02-30-24.html", "index.html"] := by
  have h24 : ∀ l ∈ (["report_01-15-24.html", "notes_12-31-23.html", "index.html",
      "draft_02-30-24.html"] : List String).permutations',
      buildManifest l = ["report_01-15-24.html", "notes_12-31-23.html",
        "draft_02-30-24.html", "index.html"] := by decide
  exact h24 files (List.mem_permutations'.mpr h)

theorem example_directory_order_witness :
    buildManifest ["report_01-15-24.html", "notes_12-31-23.html", "index.html",
      "draft_02-30-24.html"] = ["report_01-15-24.html", "notes_12-31-23.html",
      "draft_02-30-24.html", "index.html"] :=
  example_directory_order _ (List.Perm.refl _)

/-- C10: the date sort is stable — among dated files sharing one extracted
`DateKey`, the sorted list (hence the manifest, whose dated block is its
`map Prod.snd`) keeps them in directory-enumeration order: filtering either
list to one key yields identical sequences. -/
theorem dated_tie_order_preserved (files : List String) (k : DateKey) :
    (sortedDatedPairs files).filter (fun p => p.1 == k) =
      (datedPairs files).filter (fun p => p.1 == k) ∧
    ((sortedDatedPairs files).filter (fun p => p.1 == k)).map Prod.snd =
      ((datedPairs files).filter (fun p => p.1 == k)).map Prod.snd := by
  have hmem : ∀ p ∈ (datedPairs files).filter (fun p => p.1 == k), p.1 = k := by
    intro p hp
    have := (List.mem_filter.mp hp).2
    simpa using this
  have key : (sortedDatedPairs files).filter (fun p => p.1 == k) =
      (datedPairs files).filter (fun p => p.1 == k) := by
    have hpw : ((datedPairs files).filter (fun p => p.1 == k)).Pairwise dkDescRel := by
      apply List.pairwise_of_forall_mem_list
      intro p hp q hq
      have h1 := hmem p hp
      have h2 := hmem q hq
      unfold dkDescRel
      rw [h1, h2]
      simp [dkLe]
    have hsub : (datedPairs files).filter (fun p => p.1 == k) <+ sortedDatedPairs files :=
      List.sublist_insertionSort hpw (List.filter_sublist _)
    have hsub2 : (datedPairs files).filter (fun p => p.1 == k) <+
        (sortedDatedPairs files).filter (fun p => p.1 == k) := by
      have h3 := hsub.filter (fun p => p.1 == k)
      rwa [List.filter_eq_self.mpr (fun a ha => by simp [hmem a ha])] at h3
    have hperm : (sortedDatedPairs files).filter (fun p => p.1 == k) ~
        (datedPairs files).filter (fun p => p.1 == k) :=
      (sortedDatedPairs_perm files).filter _
    exact (hsub2.eq_of_length hperm.length_eq.symm).symm
  exact ⟨key, by rw [key]⟩

/-! ### Concrete sanity checks of the embedding -/

example : extract_date_from_filename "report_01-15-24.html" = some ⟨2024, 1, 15⟩ := by decide
example : extract_date_from_filename "notes_12-31-23.html" = some ⟨2023, 12, 31⟩ := by decide
example : extract_date_from_filename "draft_02-30-24.html" = none := by decide
example : extract_date_from_filename "index.html" = none := by decide
example : extract_date_from_filename "a_1-1-24.html" = some ⟨2024, 1, 1⟩ := by decide
example : extract_date_from_filename "a_1-1-123.html" = none := by decide
example : extract_date_from_filename "x_13-01-24.html" = none := by decide

example :
    buildManifest ["report_01-15-24.html", "notes_12-31-23.html", "index.html",
      "draft_02-30-24.html"] =
    ["report_01-15-24.html", "notes_12-31-23.html", "draft_02-30-24.html",
      "index.html"] := by decide
example : renderJson [] = "[]" := by decide
example :
    renderJson ["a.html", "b.html"] = "[\n  \"a.html\",\n  \"b.html\"\n]" := by decide
